import Mathlib

/-!
Shallow embedding of the DealersEdge analytics core
(`src/backend/max_pain.py`, `src/backend/gex_calculator.py`,
`src/backend/gamma_channel.py`, `src/backend/acf_engine.py`,
`src/backend/directional_engine.py`) together with theorems settling the
specification claims about those components.

Machine floats are modelled as exact rationals (ℚ); the Black-Scholes
primitives, which use transcendental functions, are modelled over ℝ.
Python `round(x, n)` (round-half-to-even) is modelled by `rndTo`.
-/

namespace DealersEdge

/-- Python `round` to an integer: round half to even (banker's rounding). -/
def rnd (x : ℚ) : ℤ :=
  if x - ⌊x⌋ < 1/2 then ⌊x⌋
  else if x - ⌊x⌋ > 1/2 then ⌊x⌋ + 1
  else if ⌊x⌋ % 2 = 0 then ⌊x⌋ else ⌊x⌋ + 1

/-- Python `round(x, d)`: round to `d` decimal digits, half to even. -/
def rndTo (d : ℕ) (x : ℚ) : ℚ :=
  (rnd (x * 10 ^ d) : ℚ) / 10 ^ d

theorem rnd_le (x : ℚ) : (rnd x : ℚ) ≤ x + 1/2 := by
  unfold rnd
  have hfl : (⌊x⌋ : ℚ) ≤ x := Int.floor_le x
  split_ifs with h1 h2 h3 <;> push_cast <;> linarith

theorem le_rnd (x : ℚ) : x - 1/2 ≤ (rnd x : ℚ) := by
  unfold rnd
  have hfr : x - 1 < (⌊x⌋ : ℚ) := by
    have := Int.lt_floor_add_one x
    linarith
  split_ifs with h1 h2 h3 <;> push_cast <;> linarith

theorem floor_le_rnd (x : ℚ) : ⌊x⌋ ≤ rnd x := by
  unfold rnd; split_ifs <;> omega

theorem rnd_le_floor_add_one (x : ℚ) : rnd x ≤ ⌊x⌋ + 1 := by
  unfold rnd; split_ifs <;> omega

theorem rnd_mono {x y : ℚ} (h : x ≤ y) : rnd x ≤ rnd y := by
  have hfl : ⌊x⌋ ≤ ⌊y⌋ := Int.floor_le_floor h
  rcases lt_or_eq_of_le hfl with hlt | heq
  · -- different floors: rnd x ≤ ⌊x⌋ + 1 ≤ ⌊y⌋ ≤ rnd y
    have h1 := rnd_le_floor_add_one x
    have h2 := floor_le_rnd y
    omega
  · -- same floor: compare fractional parts
    have hfrac : x - (⌊x⌋ : ℚ) ≤ y - (⌊y⌋ : ℚ) := by
      rw [← heq]; linarith
    unfold rnd
    rw [← heq]
    split_ifs with a1 a2 a3 a4 a5 a6 a7 <;> first
      | omega
      | (exfalso; linarith)

theorem rnd_intCast (n : ℤ) : rnd (n : ℚ) = n := by
  unfold rnd
  simp

/-- Model of Python `min(list, key=...)`: scan keeping the first element whose
key is strictly smaller than the current best's. -/
def firstMinBy (key : α → ℚ) : α → List α → α
  | best, [] => best
  | best, x :: xs => if key x < key best then firstMinBy key x xs else firstMinBy key best xs

/-- Model of Python `max(list, key=...)`: first element with strictly larger key wins. -/
def firstMaxBy (key : α → ℚ) : α → List α → α
  | best, [] => best
  | best, x :: xs => if key x > key best then firstMaxBy key x xs else firstMaxBy key best xs

theorem firstMinBy_mem (key : α → ℚ) (b : α) (l : List α) :
    firstMinBy key b l ∈ b :: l := by
  induction l generalizing b with
  | nil => simp [firstMinBy]
  | cons x xs ih =>
    unfold firstMinBy
    split_ifs
    · have := ih x
      simp only [List.mem_cons] at this ⊢
      tauto
    · have := ih b
      simp only [List.mem_cons] at this ⊢
      tauto

theorem firstMaxBy_mem (key : α → ℚ) (b : α) (l : List α) :
    firstMaxBy key b l ∈ b :: l := by
  induction l generalizing b with
  | nil => simp [firstMaxBy]
  | cons x xs ih =>
    unfold firstMaxBy
    split_ifs
    · have := ih x
      simp only [List.mem_cons] at this ⊢
      tauto
    · have := ih b
      simp only [List.mem_cons] at this ⊢
      tauto

theorem firstMinBy_le (key : α → ℚ) (b : α) (l : List α) :
    key (firstMinBy key b l) ≤ key b ∧ ∀ x ∈ l, key (firstMinBy key b l) ≤ key x := by
  induction l generalizing b with
  | nil => simp [firstMinBy]
  | cons x xs ih =>
    unfold firstMinBy
    split_ifs with h
    · obtain ⟨h1, h2⟩ := ih x
      refine ⟨by linarith, ?_⟩
      intro z hz
      rcases List.mem_cons.mp hz with rfl | hz'
      · exact h1
      · exact h2 z hz'
    · obtain ⟨h1, h2⟩ := ih b
      refine ⟨h1, ?_⟩
      intro z hz
      rcases List.mem_cons.mp hz with rfl | hz'
      · linarith [not_lt.mp h]
      · exact h2 z hz'

/-- `firstMinBy` only replaces the running best on a strict decrease, so if the
final key equals the initial one, the initial element was kept. -/
theorem firstMinBy_eq_of_key_eq (key : α → ℚ) (b : α) (l : List α)
    (h : key (firstMinBy key b l) = key b) : firstMinBy key b l = b := by
  induction l generalizing b with
  | nil => simp [firstMinBy]
  | cons x xs ih =>
    unfold firstMinBy at h ⊢
    split_ifs at h ⊢ with hx
    · exfalso
      have := (firstMinBy_le key x xs).1
      linarith
    · exact ih b h

/-- On a list whose `pos` projections are strictly increasing, `firstMinBy`
returns the element with the smallest `pos` among those attaining the minimal key. -/
theorem firstMinBy_tie (key pos : α → ℚ) (b : α) (l : List α)
    (hch : List.Chain' (fun u v => pos u < pos v) (b :: l)) :
    ∀ e ∈ b :: l, key e = key (firstMinBy key b l) →
      pos (firstMinBy key b l) ≤ pos e := by
  induction l generalizing b with
  | nil =>
    intro e he hk
    simp only [List.mem_cons, List.not_mem_nil, or_false] at he
    subst he
    simp [firstMinBy]
  | cons x xs ih =>
    intro e he hk
    have hbx : pos b < pos x := (List.chain'_cons.mp hch).1
    have hchx : List.Chain' (fun u v => pos u < pos v) (x :: xs) :=
      (List.chain'_cons.mp hch).2
    unfold firstMinBy at hk ⊢
    split_ifs at hk ⊢ with hlt
    · -- best replaced by x
      rcases List.mem_cons.mp he with rfl | he'
      · -- e = b impossible: the final key is ≤ key x < key b
        exfalso
        have := (firstMinBy_le key x xs).1
        linarith
      · exact ih x hchx e he' hk
    · -- best kept
      have hchbxs : List.Chain' (fun u v => pos u < pos v) (b :: xs) := by
        cases xs with
        | nil => simp
        | cons y ys =>
          have hxy : pos x < pos y := (List.chain'_cons.mp hchx).1
          exact List.chain'_cons.mpr ⟨by linarith,
            (List.chain'_cons.mp hchx).2⟩
      rcases List.mem_cons.mp he with heq | he'
      · rw [heq] at hk ⊢
        exact ih b hchbxs b (List.mem_cons_self _ _) hk
      · rcases List.mem_cons.mp he' with heq | he''
        · -- e = x: keys force the result to be b itself
          subst heq
          have hble : key b ≤ key e := not_lt.mp hlt
          have h1 := (firstMinBy_le key b xs).1
          have heqb : key (firstMinBy key b xs) = key b := le_antisymm h1 (by linarith [hk.ge])
          rw [firstMinBy_eq_of_key_eq key b xs heqb]
          linarith
        · exact ih b hchbxs e (List.mem_cons.mpr (Or.inr he'')) hk

/-! ## Max pain (`src/backend/max_pain.py`, `calculate_max_pain`) -/

/-- One option record as consumed by `calculate_max_pain`:
`float(c["strike"])` and `int(c.get("openInterest", 0))`. -/
structure OptionRec where
  strike : ℚ
  openInterest : ℤ
deriving DecidableEq

/-- The candidate strikes: the set of strikes of all calls and puts,
sorted ascending (`strikes = sorted(set(...))`). -/
def strikesOf (calls puts : List OptionRec) : List ℚ :=
  ((calls ++ puts).map OptionRec.strike).toFinset.sort (· ≤ ·)

/-- `total_pain` at a candidate strike `t`: intrinsic value of all ITM calls
and puts, `(t-k)*oi*100` resp. `(k-t)*oi*100`. -/
def totalPain (calls puts : List OptionRec) (t : ℚ) : ℚ :=
  (calls.map (fun c => if t > c.strike then (t - c.strike) * c.openInterest * 100 else 0)).sum
  + (puts.map (fun p => if t < p.strike then (p.strike - t) * p.openInterest * 100 else 0)).sum

/-- Result dictionary of `calculate_max_pain`; in the empty-chain branch the
Python dict carries no `max_pain_value` key, modelled by `none`. -/
structure MaxPainResult where
  max_pain : ℚ
  max_pain_value : Option ℚ
  pain_by_strike : List (ℚ × ℚ)
deriving DecidableEq

/-- Builds `pain_by_strike` over the candidate strikes and takes
`min(pain_by_strike, key=total_pain)` (first minimum wins, as in Python). -/
def maxPainCore (pain : ℚ → ℚ) : List ℚ → MaxPainResult
  | [] => ⟨0, none, []⟩
  | t :: ts =>
    let e0 : ℚ × ℚ := (t, pain t)
    let rest := ts.map (fun s => (s, pain s))
    let best := firstMinBy Prod.snd e0 rest
    ⟨best.1, some best.2, e0 :: rest⟩

/-- `calculate_max_pain` from `src/backend/max_pain.py`: per-strike pain is
rounded to 2 decimals before the argmin, exactly as in the source. -/
def calculate_max_pain (calls puts : List OptionRec) : MaxPainResult :=
  maxPainCore (fun s => rndTo 2 (totalPain calls puts s)) (strikesOf calls puts)

theorem strikesOf_perm {c c' p p' : List OptionRec}
    (hc : c.Perm c') (hp : p.Perm p') : strikesOf c p = strikesOf c' p' := by
  unfold strikesOf
  rw [List.toFinset_eq_of_perm _ _ ((hc.append hp).map OptionRec.strike)]

theorem totalPain_perm {c c' p p' : List OptionRec}
    (hc : c.Perm c') (hp : p.Perm p') (t : ℚ) :
    totalPain c p t = totalPain c' p' t := by
  unfold totalPain
  rw [(hc.map _).sum_eq, (hp.map _).sum_eq]

theorem strikesOf_ne_nil {c p : List OptionRec} (hne : c ++ p ≠ []) :
    strikesOf c p ≠ [] := by
  unfold strikesOf
  intro h
  rcases List.exists_mem_of_ne_nil _ hne with ⟨r, hr⟩
  have hmem : r.strike ∈ ((c ++ p).map OptionRec.strike).toFinset := by
    rw [List.mem_toFinset]
    exact List.mem_map.mpr ⟨r, hr, rfl⟩
  have := (Finset.mem_sort (α := ℚ) (· ≤ ·)).mpr hmem
  rw [h] at this
  exact List.not_mem_nil _ this

theorem strikesOf_single {c p : List OptionRec} (s : ℚ) (hne : c ++ p ≠ [])
    (hall : ∀ r ∈ c ++ p, r.strike = s) : strikesOf c p = [s] := by
  unfold strikesOf
  have hset : ((c ++ p).map OptionRec.strike).toFinset = {s} := by
    apply Finset.ext
    intro x
    simp only [List.mem_toFinset, List.mem_map, Finset.mem_singleton]
    constructor
    · rintro ⟨r, hr, rfl⟩
      exact hall r hr
    · rintro rfl
      rcases List.exists_mem_of_ne_nil _ hne with ⟨r, hr⟩
      exact ⟨r, hr, hall r hr⟩
  rw [hset, Finset.sort_singleton]

theorem totalPain_self_single {c p : List OptionRec} (s : ℚ)
    (hall : ∀ r ∈ c ++ p, r.strike = s) : totalPain c p s = 0 := by
  unfold totalPain
  have h1 : (c.map (fun r => if s > r.strike then (s - r.strike) * r.openInterest * 100 else 0)).sum = 0 := by
    apply List.sum_eq_zero
    intro x hx
    rcases List.mem_map.mp hx with ⟨r, hr, rfl⟩
    have := hall r (List.mem_append.mpr (Or.inl hr))
    simp [this]
  have h2 : (p.map (fun r => if s < r.strike then (r.strike - s) * r.openInterest * 100 else 0)).sum = 0 := by
    apply List.sum_eq_zero
    intro x hx
    rcases List.mem_map.mp hx with ⟨r, hr, rfl⟩
    have := hall r (List.mem_append.mpr (Or.inr hr))
    simp [this]
  rw [h1, h2, add_zero]

/-- C8: `calculate_max_pain` is invariant under any permutation of its calls
list and of its puts list, and on a chain whose calls and puts all share one
strike `s` it returns `max_pain = s` with `max_pain_value = 0`. -/
theorem calculate_max_pain_perm_invariant_and_single_strike :
    (∀ (c c' p p' : List OptionRec), c.Perm c' → p.Perm p' →
      calculate_max_pain c p = calculate_max_pain c' p') ∧
    (∀ (c p : List OptionRec) (s : ℚ), c ++ p ≠ [] →
      (∀ r ∈ c ++ p, r.strike = s) →
      (calculate_max_pain c p).max_pain = s ∧
      (calculate_max_pain c p).max_pain_value = some 0) := by
  constructor
  · intro c c' p p' hc hp
    unfold calculate_max_pain
    have hf : (fun s => rndTo 2 (totalPain c p s)) = (fun s => rndTo 2 (totalPain c' p' s)) := by
      funext s
      rw [totalPain_perm hc hp]
    rw [hf, strikesOf_perm hc hp]
  · intro c p s hne hall
    unfold calculate_max_pain
    rw [strikesOf_single s hne hall]
    have hp0 : rndTo 2 (totalPain c p s) = 0 := by
      rw [totalPain_self_single s hall]
      norm_num [rndTo, rnd]
    simp [maxPainCore, firstMinBy, hp0]

/-- Witness for C8 at concrete chains. -/
theorem calculate_max_pain_perm_invariant_and_single_strike_witness :
    calculate_max_pain [⟨100, 10⟩, ⟨110, 5⟩] [⟨105, 7⟩]
      = calculate_max_pain [⟨110, 5⟩, ⟨100, 10⟩] [⟨105, 7⟩] ∧
    (calculate_max_pain [⟨100, 10⟩] [⟨100, 3⟩]).max_pain = 100 ∧
    (calculate_max_pain [⟨100, 10⟩] [⟨100, 3⟩]).max_pain_value = some 0 := by
  refine ⟨?_, ?_⟩
  · exact calculate_max_pain_perm_invariant_and_single_strike.1 _ _ _ _
      (List.Perm.swap _ _ _) (List.Perm.refl _)
  · exact calculate_max_pain_perm_invariant_and_single_strike.2
      [⟨100, 10⟩] [⟨100, 3⟩] 100 (by simp)
      (by intro r hr; fin_cases hr <;> rfl)

theorem maxPainCore_spec (pain : ℚ → ℚ) (t : ℚ) (ts : List ℚ)
    (hch : List.Chain' (· < ·) (t :: ts)) :
    (maxPainCore pain (t :: ts)).max_pain ∈ t :: ts ∧
    ∃ v, (maxPainCore pain (t :: ts)).max_pain_value = some v ∧
      (∀ s ∈ t :: ts, v ≤ pain s) ∧
      (∀ s ∈ t :: ts, pain s = v → (maxPainCore pain (t :: ts)).max_pain ≤ s) := by
  have hmap : (t, pain t) :: ts.map (fun s => (s, pain s))
      = (t :: ts).map (fun s => (s, pain s)) := by simp
  have hres : maxPainCore pain (t :: ts)
      = ⟨(firstMinBy Prod.snd (t, pain t) (ts.map (fun s => (s, pain s)))).1,
         some (firstMinBy Prod.snd (t, pain t) (ts.map (fun s => (s, pain s)))).2,
         (t, pain t) :: ts.map (fun s => (s, pain s))⟩ := rfl
  set best := firstMinBy Prod.snd (t, pain t) (ts.map (fun s => (s, pain s))) with hbest
  have hmem : best ∈ (t :: ts).map (fun s => (s, pain s)) := by
    rw [← hmap]; exact firstMinBy_mem _ _ _
  rcases List.mem_map.mp hmem with ⟨s0, hs0, hbe⟩
  have hchp : List.Chain' (fun u v : ℚ × ℚ => u.1 < v.1)
      ((t :: ts).map (fun s => (s, pain s))) := by
    rw [List.chain'_map]
    exact hch
  have hle := firstMinBy_le Prod.snd (t, pain t) (ts.map (fun s => (s, pain s)))
  refine ⟨?_, best.2, ?_, ?_, ?_⟩
  · rw [hres]
    rw [← hbe]
    exact hs0
  · rw [hres]
  · intro s hs
    rcases List.mem_cons.mp hs with rfl | hs'
    · exact hle.1
    · exact hle.2 (s, pain s) (List.mem_map.mpr ⟨s, hs', rfl⟩)
  · intro s hs hps
    have htie := firstMinBy_tie Prod.snd Prod.fst (t, pain t)
      (ts.map (fun s => (s, pain s))) (by rw [hmap]; exact hchp)
      (s, pain s) (by rw [hmap]; exact List.mem_map.mpr ⟨s, hs, rfl⟩)
      (by exact hps)
    rw [hres]
    exact htie

/-- C10: for every non-empty chain, `calculate_max_pain` returns a strike of
the input chain whose (rounded, as stored) total pain is minimal over the
candidate set, and on ties the lowest such strike. -/
theorem calculate_max_pain_argmin (c p : List OptionRec) (hne : c ++ p ≠ []) :
    (calculate_max_pain c p).max_pain ∈ strikesOf c p ∧
    ∃ v, (calculate_max_pain c p).max_pain_value = some v ∧
      (∀ t ∈ strikesOf c p, v ≤ rndTo 2 (totalPain c p t)) ∧
      (∀ t ∈ strikesOf c p, rndTo 2 (totalPain c p t) = v →
        (calculate_max_pain c p).max_pain ≤ t) := by
  have hchain : List.Chain' (· < ·) (strikesOf c p) := by
    unfold strikesOf
    exact (Finset.sort_sorted_lt _).chain'
  cases hs : strikesOf c p with
  | nil => exact absurd hs (strikesOf_ne_nil hne)
  | cons t ts =>
    rw [hs] at hchain
    have := maxPainCore_spec (fun s => rndTo 2 (totalPain c p s)) t ts hchain
    unfold calculate_max_pain
    rw [hs]
    exact this

/-- Witness for C10 at a concrete chain. -/
theorem calculate_max_pain_argmin_witness :
    (calculate_max_pain [⟨100, 10⟩, ⟨110, 5⟩] [⟨105, 7⟩]).max_pain
      ∈ strikesOf [⟨100, 10⟩, ⟨110, 5⟩] [⟨105, 7⟩] ∧
    ∃ v, (calculate_max_pain [⟨100, 10⟩, ⟨110, 5⟩] [⟨105, 7⟩]).max_pain_value = some v ∧
      (∀ t ∈ strikesOf [⟨100, 10⟩, ⟨110, 5⟩] [⟨105, 7⟩],
        v ≤ rndTo 2 (totalPain [⟨100, 10⟩, ⟨110, 5⟩] [⟨105, 7⟩] t)) ∧
      (∀ t ∈ strikesOf [⟨100, 10⟩, ⟨110, 5⟩] [⟨105, 7⟩],
        rndTo 2 (totalPain [⟨100, 10⟩, ⟨110, 5⟩] [⟨105, 7⟩] t) = v →
        (calculate_max_pain [⟨100, 10⟩, ⟨110, 5⟩] [⟨105, 7⟩]).max_pain ≤ t) :=
  calculate_max_pain_argmin _ _ (by simp)

/-! ## Kelly sizing (`src/backend/directional_engine.py`, `_kelly_size`) -/

/-- `b = max(edge_pct / 100, 0.5)` — payoff ratio floor. -/
def kelly_b (edge_pct : ℚ) : ℚ := max (edge_pct / 100) (1/2)

/-- `p = min(win_prob / 100, 0.9)`. -/
def kelly_p (win_prob : ℚ) : ℚ := min (win_prob / 100) (9/10)

/-- `kelly_full = (b*p - q) / b if b > 0 else 0` with `q = 1 - p`. -/
def kelly_full (edge_pct win_prob : ℚ) : ℚ :=
  if kelly_b edge_pct > 0 then
    (kelly_b edge_pct * kelly_p win_prob - (1 - kelly_p win_prob)) / kelly_b edge_pct
  else 0

/-- `kelly_half = max(0, kelly_full * 0.5)`. -/
def kelly_half (edge_pct win_prob : ℚ) : ℚ :=
  max 0 (kelly_full edge_pct win_prob * (1/2))

/-- The vol-regime multiplier of `_kelly_size`:
0.7 expensive, 0.8 moderate, 1.2 cheap, else 1.0. -/
def regime_scale (iv_hv : ℚ) (vrp_context : String) : ℚ :=
  if iv_hv > 3/2 ∨ vrp_context = "HIGH_PREMIUM" then 7/10
  else if iv_hv > 13/10 ∧ vrp_context = "MODERATE_PREMIUM" then 8/10
  else if iv_hv < 9/10 ∨ vrp_context = "DISCOUNT" then 12/10
  else 1

/-- `_kelly_size`: guard, half-Kelly, vol-regime scaling, `round(.,1)`, then
clamp to `[0.25, 5.0]`. Returns the percentage (the label string is omitted). -/
def kelly_size (edge_pct win_prob iv_hv : ℚ) (vrp_context : String) : ℚ :=
  if edge_pct ≤ 0 ∨ win_prob ≤ 0 then 0
  else max (1/4) (min 5
    (rndTo 1 (kelly_half edge_pct win_prob * regime_scale iv_hv vrp_context * 100)))

theorem rndTo_mono (d : ℕ) {x y : ℚ} (h : x ≤ y) : rndTo d x ≤ rndTo d y := by
  unfold rndTo
  have h10 : (0:ℚ) < 10 ^ d := by positivity
  have hr : ((rnd (x * 10 ^ d) : ℚ)) ≤ (rnd (y * 10 ^ d) : ℚ) := by
    exact_mod_cast rnd_mono (mul_le_mul_of_nonneg_right h (le_of_lt h10))
  exact div_le_div_of_nonneg_right hr (le_of_lt h10)

/-- C7: `_kelly_size` returns 0 whenever `edge ≤ 0` or `win_prob ≤ 0`, and for
positive edge and win probability the result lies in `[0.25, 5]`. -/
theorem kelly_size_guard_and_bounds (edge win iv_hv : ℚ) (vrp : String) :
    ((edge ≤ 0 ∨ win ≤ 0) → kelly_size edge win iv_hv vrp = 0) ∧
    (0 < edge → 0 < win →
      1/4 ≤ kelly_size edge win iv_hv vrp ∧ kelly_size edge win iv_hv vrp ≤ 5) := by
  constructor
  · intro h
    unfold kelly_size
    exact if_pos h
  · intro he hw
    unfold kelly_size
    rw [if_neg (by push_neg; exact ⟨he, hw⟩)]
    constructor
    · exact le_max_left _ _
    · apply max_le (by norm_num)
      exact le_trans (min_le_left _ _) le_rfl

/-- Witness for C7. -/
theorem kelly_size_guard_and_bounds_witness :
    kelly_size (-1) 10 1 "FAIR" = 0 ∧
    (1/4 ≤ kelly_size 200 60 1 "FAIR" ∧ kelly_size 200 60 1 "FAIR" ≤ 5) :=
  ⟨(kelly_size_guard_and_bounds (-1) 10 1 "FAIR").1 (Or.inl (by norm_num)),
   (kelly_size_guard_and_bounds 200 60 1 "FAIR").2 (by norm_num) (by norm_num)⟩

/-- Counterexample to C2 as stated: with edge 1%, win probability 10%, the
half-Kelly is floored at 0 and both the expensive (iv/hv = 2, multiplier 0.7)
and the fair (iv/hv = 1, multiplier 1.0) sizings clamp to the same 0.25%
floor, so the expensive context is not strictly smaller. -/
theorem kelly_size_not_strictly_smaller :
    (0:ℚ) < 1 ∧ (0:ℚ) < 10 ∧ (3/2:ℚ) < 2 ∧ regime_scale 1 "FAIR" = 1 ∧
    kelly_size 1 10 2 "FAIR" = kelly_size 1 10 1 "FAIR" := by
  have hsc : regime_scale 1 "FAIR" = 1 := by
    unfold regime_scale
    rw [if_neg (by push_neg; exact ⟨by norm_num, by decide⟩),
      if_neg (by rintro ⟨-, h⟩; exact absurd h (by decide)),
      if_neg (by push_neg; exact ⟨by norm_num, by decide⟩)]
  have hsc2 : regime_scale 2 "FAIR" = 7/10 := by
    unfold regime_scale
    rw [if_pos (Or.inl (by norm_num))]
  refine ⟨by norm_num, by norm_num, by norm_num, hsc, ?_⟩
  have hhalf : kelly_half 1 10 = 0 := by
    norm_num [kelly_half, kelly_full, kelly_b, kelly_p]
  unfold kelly_size
  rw [if_neg (by push_neg; norm_num), if_neg (by push_neg; norm_num),
    hsc, hsc2, hhalf]
  norm_num [rndTo, rnd]

/-- C2 (amended): at equal positive edge, positive win probability and equal
VRP context, an expensive IV context (iv/hv > 1.5) yields a position size that
is never larger than the fair-IV (multiplier 1.0) size, and strictly smaller
whenever the expensive result is above the 0.25% floor and the fair result is
below the 5% cap. -/
theorem kelly_size_expensive_le_fair (edge win iv_e iv_f : ℚ) (vrp : String)
    (hedge : 0 < edge) (hwin : 0 < win)
    (hexp : 3/2 < iv_e) (hfair : regime_scale iv_f vrp = 1) :
    kelly_size edge win iv_e vrp ≤ kelly_size edge win iv_f vrp ∧
    (1/4 < kelly_size edge win iv_e vrp → kelly_size edge win iv_f vrp < 5 →
      kelly_size edge win iv_e vrp < kelly_size edge win iv_f vrp) := by
  have hscale_e : regime_scale iv_e vrp = 7/10 := by
    unfold regime_scale
    rw [if_pos (Or.inl hexp)]
  have hguard : ¬(edge ≤ 0 ∨ win ≤ 0) := by push_neg; exact ⟨hedge, hwin⟩
  have hh : 0 ≤ kelly_half edge win := le_max_left _ _
  set h := kelly_half edge win with hhdef
  have hE : kelly_size edge win iv_e vrp
      = max (1/4) (min 5 (rndTo 1 (h * (7/10) * 100))) := by
    unfold kelly_size
    rw [if_neg hguard, hscale_e]
  have hF : kelly_size edge win iv_f vrp
      = max (1/4) (min 5 (rndTo 1 (h * 1 * 100))) := by
    unfold kelly_size
    rw [if_neg hguard, hfair]
  have hmul : h * (7/10) * 100 ≤ h * 1 * 100 := by nlinarith
  have hmono : rndTo 1 (h * (7/10) * 100) ≤ rndTo 1 (h * 1 * 100) :=
    rndTo_mono 1 hmul
  constructor
  · rw [hE, hF]
    exact max_le_max le_rfl (min_le_min le_rfl hmono)
  · intro hfloor hcap
    rw [hE] at hfloor ⊢
    rw [hF] at hcap ⊢
    set e' := rndTo 1 (h * (7/10) * 100) with he'
    set f' := rndTo 1 (h * 1 * 100) with hf'
    have hmin_e : 1/4 < min 5 e' := lt_of_lt_of_le hfloor (by
      rcases max_choice (1/4 : ℚ) (min 5 e') with hc | hc
      · rw [hc] at hfloor; exact absurd hfloor (lt_irrefl _)
      · rw [hc])
    have he_gt : 1/4 < e' := lt_of_lt_of_le hmin_e (min_le_right _ _)
    have hf_lt5 : f' < 5 := by
      by_contra hge
      push_neg at hge
      have : min 5 f' = 5 := min_eq_left hge
      rw [this] at hcap
      have : (5:ℚ) ≤ max (1/4) 5 := le_max_right _ _
      linarith
    -- From e' > 1/4 derive h*100 ≥ 5/14, then strict separation of the rounds.
    have hb1 : (rnd ((h * (7/10) * 100) * 10^1) : ℚ) ≤ (h * (7/10) * 100) * 10^1 + 1/2 :=
      rnd_le _
    have hb2 : (h * 1 * 100) * 10^1 - 1/2 ≤ (rnd ((h * 1 * 100) * 10^1) : ℚ) :=
      le_rnd _
    have hb3 : (h * (7/10) * 100) * 10^1 - 1/2 ≤ (rnd ((h * (7/10) * 100) * 10^1) : ℚ) :=
      le_rnd _
    have he'val : e' = (rnd ((h * (7/10) * 100) * 10^1) : ℚ) / 10^1 := rfl
    have hf'val : f' = (rnd ((h * 1 * 100) * 10^1) : ℚ) / 10^1 := rfl
    have h10 : (0:ℚ) < 10^1 := by norm_num
    have hrnd_gt : (5/2 : ℚ) < (rnd (h * (7/10) * 100 * 10^1) : ℚ) := by
      rw [he'val] at he_gt
      rw [lt_div_iff₀ h10] at he_gt
      linarith
    have hrnd_ge3 : (3 : ℤ) ≤ rnd (h * (7/10) * 100 * 10^1) := by
      have h2 : (2 : ℤ) < rnd (h * (7/10) * 100 * 10^1) := by
        exact_mod_cast lt_trans (by norm_num : (2:ℚ) < 5/2) hrnd_gt
      omega
    have h3q : (3 : ℚ) ≤ (rnd (h * (7/10) * 100 * 10^1) : ℚ) := by
      exact_mod_cast hrnd_ge3
    have hw : 5/14 ≤ h * 100 := by linarith
    have hlt : e' < f' := by
      rw [he'val, hf'val]
      rw [div_lt_div_iff₀ h10 h10]
      have hcast : ((rnd (h * (7/10) * 100 * 10^1) : ℚ)) < (rnd (h * 1 * 100 * 10^1) : ℚ) := by
        linarith
      exact mul_lt_mul_of_pos_right hcast h10
    calc max (1/4) (min 5 e') = min 5 e' := max_eq_right (le_of_lt hmin_e)
      _ ≤ e' := min_le_right _ _
      _ < f' := hlt
      _ = min 5 f' := (min_eq_right (le_of_lt hf_lt5)).symm
      _ ≤ max (1/4) (min 5 f') := le_max_right _ _

/-- Witness for the amended C2 at a concrete input. -/
theorem kelly_size_expensive_le_fair_witness :
    kelly_size 200 38 2 "FAIR" ≤ kelly_size 200 38 1 "FAIR" ∧
    (1/4 < kelly_size 200 38 2 "FAIR" → kelly_size 200 38 1 "FAIR" < 5 →
      kelly_size 200 38 2 "FAIR" < kelly_size 200 38 1 "FAIR") :=
  kelly_size_expensive_le_fair 200 38 2 1 "FAIR" (by norm_num) (by norm_num)
    (by norm_num)
    (by unfold regime_scale
        rw [if_neg (by push_neg; exact ⟨by norm_num, by decide⟩),
          if_neg (by rintro ⟨-, h⟩; exact absurd h (by decide)),
          if_neg (by push_neg; exact ⟨by norm_num, by decide⟩)])

/-! ## Thesis decision tree (`src/backend/directional_engine.py`, `classify_thesis`) -/

/-- `momentum` predicate of the decision tree (`acf_net_momentum`). -/
def acf_net_momentum (acf1 pct_amp pct_damp : ℚ) (sei_regime : String) : Bool :=
  decide ((pct_amp > pct_damp ∧ (pct_amp > 13 ∨ acf1 > 1/20)) ∨
    ((sei_regime = "HIGH_EXCITATION" ∨ sei_regime = "MODERATE_EXCITATION") ∧ acf1 > 0))

/-- `beta_adj = 1.0 / max(beta, 0.3)` and `re_gamma_adj = re_gamma * beta_adj`. -/
def re_gamma_adj (re_gamma beta : ℚ) : ℚ := re_gamma * (1 / max beta (3/10))

/-- The effective ratio fed into the decision tree: CRITICAL entropy plus
TRANSITIONAL flow forces it up to at least 1.05. -/
def effective_re (re_gamma beta : ℚ) (entropy_regime re_regime : String) : ℚ :=
  if entropy_regime = "CRITICAL" ∧ re_regime = "TRANSITIONAL" then
    max (re_gamma_adj re_gamma beta) (21/20)
  else re_gamma_adj re_gamma beta

/-- The fixed-priority thesis decision tree of `classify_thesis`. -/
def classify_thesis (acf_regime : String) (acf1 pct_amp pct_damp : ℚ)
    (sei_regime : String) (re_gamma : ℚ) (re_regime entropy_regime : String)
    (beta : ℚ) : String :=
  if effective_re re_gamma beta entropy_regime re_regime > 1
      ∧ acf_net_momentum acf1 pct_amp pct_damp sei_regime then "MOMENTUM_BREAKOUT"
  else if effective_re re_gamma beta entropy_regime re_regime > 1 then "MOMENTUM_EARLY"
  else if pct_amp > pct_damp ∧ pct_amp > 13
      ∧ effective_re re_gamma beta entropy_regime re_regime < 7/10 then "CONFLICTED_PIN"
  else if acf_regime = "SHORT_GAMMA" ∨ acf1 > 1/20 then "MOMENTUM_TREND"
  else if acf_regime = "LONG_GAMMA" ∧ acf1 < -(1/10) then "FADE_MOVES"
  else if acf_regime = "LONG_GAMMA" then "FADE_MILD"
  else "NEUTRAL"

/-- C1: under CRITICAL entropy and TRANSITIONAL flow the effective ratio is at
least 1.05, and the thesis is MOMENTUM_BREAKOUT when the momentum predicate
holds and MOMENTUM_EARLY when it does not; no other thesis is reachable. -/
theorem classify_thesis_critical_transitional (acf_regime : String)
    (acf1 pct_amp pct_damp : ℚ) (sei_regime : String) (re_gamma beta : ℚ) :
    21/20 ≤ effective_re re_gamma beta "CRITICAL" "TRANSITIONAL" ∧
    classify_thesis acf_regime acf1 pct_amp pct_damp sei_regime re_gamma
        "TRANSITIONAL" "CRITICAL" beta
      = (if acf_net_momentum acf1 pct_amp pct_damp sei_regime then
          "MOMENTUM_BREAKOUT" else "MOMENTUM_EARLY") := by
  have heff : 21/20 ≤ effective_re re_gamma beta "CRITICAL" "TRANSITIONAL" := by
    unfold effective_re
    rw [if_pos ⟨rfl, rfl⟩]
    exact le_max_right _ _
  have hgt1 : effective_re re_gamma beta "CRITICAL" "TRANSITIONAL" > 1 := by
    linarith
  refine ⟨heff, ?_⟩
  unfold classify_thesis
  by_cases hm : acf_net_momentum acf1 pct_amp pct_damp sei_regime = true
  · rw [if_pos ⟨hgt1, hm⟩, if_pos hm]
  · rw [if_neg (by intro hand; exact hm hand.2), if_pos hgt1,
      if_neg (by simpa using hm)]

/-! ## GEX flip point and regime (`src/backend/gex_calculator.py`) -/

/-- The two per-strike fields `_find_gex_flip` and the regime logic read. -/
structure GexRow where
  strike : ℚ
  net_gex : ℚ
deriving DecidableEq

/-- Linear interpolation of the zero crossing between two adjacent strikes:
`flip = s1 + (s2 - s1) * abs(g1) / (abs(g1) + abs(g2))`. -/
def interpFlip (a b : GexRow) : ℚ :=
  a.strike + (b.strike - a.strike) * |a.net_gex| / (|a.net_gex| + |b.net_gex|)

/-- The `crossings` list of `_find_gex_flip`: scan adjacent pairs for
`g1 * g2 < 0`, interpolating and rounding each crossing to 2 decimals. -/
def gexCrossings : List GexRow → List ℚ
  | a :: b :: rest =>
    (if a.net_gex * b.net_gex < 0 then [rndTo 2 (interpFlip a b)] else [])
      ++ gexCrossings (b :: rest)
  | _ => []

/-- `_find_gex_flip`: `None` on fewer than 2 rows or no crossing, otherwise
the crossing nearest to spot (first wins on ties, as Python `min`). -/
def find_gex_flip (rows : List GexRow) (spot : ℚ) : Option ℚ :=
  if rows.length < 2 then none
  else match gexCrossings rows with
    | [] => none
    | c :: cs => some (firstMinBy (fun x => |x - spot|) c cs)

/-- Regime selection of `calculate_gex_profile` (lines 150-155): use the flip
point when present, otherwise the sign of the aggregate net GEX. -/
def gex_regime (flip : Option ℚ) (total_gex spot : ℚ) : String :=
  match flip with
  | some fp => if spot ≥ fp then "POSITIVE_GAMMA" else "NEGATIVE_GAMMA"
  | none => if total_gex ≥ 0 then "POSITIVE_GAMMA" else "NEGATIVE_GAMMA"

theorem gexCrossings_nil_of_no_sign_change (rows : List GexRow)
    (hadj : List.Chain' (fun a b => ¬(a.net_gex * b.net_gex < 0)) rows) :
    gexCrossings rows = [] := by
  induction rows with
  | nil => rfl
  | cons a rest ih =>
    cases rest with
    | nil => rfl
    | cons b rest' =>
      have h1 : ¬(a.net_gex * b.net_gex < 0) := (List.chain'_cons.mp hadj).1
      have h2 := ih ((List.chain'_cons.mp hadj).2)
      unfold gexCrossings
      rw [if_neg h1, h2]
      rfl

/-- C6: when no two adjacent strikes have opposite-signed `net_gex`, the flip
point is `None` and the regime follows the sign of the aggregate net GEX
(POSITIVE_GAMMA when it is non-negative, NEGATIVE_GAMMA otherwise). -/
theorem find_gex_flip_none_and_regime_from_total (rows : List GexRow)
    (spot total_gex : ℚ)
    (hadj : List.Chain' (fun a b => ¬(a.net_gex * b.net_gex < 0)) rows) :
    find_gex_flip rows spot = none ∧
    gex_regime (find_gex_flip rows spot) total_gex spot
      = (if total_gex ≥ 0 then "POSITIVE_GAMMA" else "NEGATIVE_GAMMA") := by
  have hnone : find_gex_flip rows spot = none := by
    unfold find_gex_flip
    split_ifs with hlen
    · rfl
    · rw [gexCrossings_nil_of_no_sign_change rows hadj]
  refine ⟨hnone, ?_⟩
  rw [hnone]
  rfl

/-- Witness for C6 at a concrete profile. -/
theorem find_gex_flip_none_and_regime_from_total_witness :
    find_gex_flip [⟨100, 5⟩, ⟨110, 3⟩] 105 = none ∧
    gex_regime (find_gex_flip [⟨100, 5⟩, ⟨110, 3⟩] 105) 8 105
      = (if (8:ℚ) ≥ 0 then "POSITIVE_GAMMA" else "NEGATIVE_GAMMA") :=
  find_gex_flip_none_and_regime_from_total _ 105 8
    (List.chain'_cons.mpr ⟨by norm_num, List.chain'_singleton _⟩)

/-! ## Stored per-strike GEX fields (`calculate_gex_profile`, lines 126-142) -/

/-- The three stored GEX fields of one `ExposureRow`. -/
structure ExposureRowGex where
  call_gex : ℚ
  put_gex : ℚ
  net_gex : ℚ

/-- How `calculate_gex_profile` stores a row from the raw per-strike call and
put GEX values: each field is rounded to 2 decimals, with `net_gex` rounded
from the exact sum `call_gex + put_gex` (line 122). -/
def storeGexRow (call_gex put_gex : ℚ) : ExposureRowGex :=
  ⟨rndTo 2 call_gex, rndTo 2 put_gex, rndTo 2 (call_gex + put_gex)⟩

theorem rnd_abs_le (x : ℚ) : |(rnd x : ℚ) - x| ≤ 1/2 :=
  abs_le.mpr ⟨by linarith [le_rnd x], by linarith [rnd_le x]⟩

/-- Counterexample to C4 as stated: for raw per-strike GEX values
`call_gex = put_gex = 0.004` the stored row has `net_gex = 0.01` but
`call_gex = put_gex = 0.0`, so the stored fields do not satisfy
`net_gex = call_gex + put_gex` exactly. -/
theorem stored_net_gex_not_exact :
    (storeGexRow (1/250) (1/250)).net_gex
      ≠ (storeGexRow (1/250) (1/250)).call_gex + (storeGexRow (1/250) (1/250)).put_gex := by
  have hf1 : ⌊(2/5 : ℚ)⌋ = 0 := by
    rw [Int.floor_eq_iff]
    norm_num
  have hf2 : ⌊(4/5 : ℚ)⌋ = 0 := by
    rw [Int.floor_eq_iff]
    norm_num
  have h1 : rndTo 2 (1/250) = 0 := by
    unfold rndTo rnd
    norm_num [hf1]
  have h2 : rndTo 2 (1/125) = 1/100 := by
    unfold rndTo rnd
    norm_num [hf2]
  unfold storeGexRow
  rw [h1, show (1/250 + 1/250 : ℚ) = 1/125 by norm_num, h2]
  norm_num

/-- C4 (amended): for every raw per-strike call/put GEX pair, the stored
fields satisfy `net_gex = call_gex + put_gex` within one rounding unit:
`|net_gex - (call_gex + put_gex)| ≤ 0.01`. -/
theorem stored_net_gex_within_cent (cg pg : ℚ) :
    |(storeGexRow cg pg).net_gex
      - ((storeGexRow cg pg).call_gex + (storeGexRow cg pg).put_gex)| ≤ 1/100 := by
  unfold storeGexRow rndTo
  have h1 := rnd_abs_le (cg * 10^2)
  have h2 := rnd_abs_le (pg * 10^2)
  have h3 := rnd_abs_le ((cg + pg) * 10^2)
  rw [abs_le] at h1 h2 h3
  have hD : |((rnd ((cg + pg) * 10^2) - rnd (cg * 10^2) - rnd (pg * 10^2) : ℤ) : ℚ)| ≤ 3/2 := by
    rw [abs_le]
    push_cast
    constructor <;> linarith
  have hDlt : |(rnd ((cg + pg) * 10^2) - rnd (cg * 10^2) - rnd (pg * 10^2) : ℤ)| < 2 := by
    have h2q : |((rnd ((cg + pg) * 10^2) - rnd (cg * 10^2) - rnd (pg * 10^2) : ℤ) : ℚ)| < 2 :=
      lt_of_le_of_lt hD (by norm_num)
    rw [← Int.cast_abs] at h2q
    exact_mod_cast h2q
  have hDint : |(rnd ((cg + pg) * 10^2) - rnd (cg * 10^2) - rnd (pg * 10^2) : ℤ)| ≤ 1 := by
    omega
  have hDq : |((rnd ((cg + pg) * 10^2) - rnd (cg * 10^2) - rnd (pg * 10^2) : ℤ) : ℚ)| ≤ 1 := by
    rw [← Int.cast_abs]
    exact_mod_cast hDint
  have heq : ((rnd ((cg + pg) * 10^2) : ℚ)) / 10^2
      - ((rnd (cg * 10^2) : ℚ) / 10^2 + (rnd (pg * 10^2) : ℚ) / 10^2)
      = ((rnd ((cg + pg) * 10^2) - rnd (cg * 10^2) - rnd (pg * 10^2) : ℤ) : ℚ) / 10^2 := by
    push_cast
    ring
  rw [heq, abs_div]
  rw [abs_of_pos (by norm_num : (0:ℚ) < 10^2)]
  rw [div_le_div_iff₀ (by norm_num) (by norm_num)]
  linarith

/-! ## Black-Scholes Greeks primitives (`src/backend/gex_calculator.py`, lines 14-54) -/

/-- Standard normal density `norm.pdf`. -/
noncomputable def normPdf (x : ℝ) : ℝ := Real.exp (-(x^2)/2) / Real.sqrt (2 * Real.pi)

/-- Standard normal distribution function `norm.cdf`. -/
noncomputable def normCdf (x : ℝ) : ℝ := ∫ t in Set.Iio x, normPdf t

/-- `d1 = (log(S/K) + (r + 0.5 σ²) T) / (σ √T)`. -/
noncomputable def bs_d1 (S K T r sigma : ℝ) : ℝ :=
  (Real.log (S / K) + (r + sigma^2 / 2) * T) / (sigma * Real.sqrt T)

/-- `d2 = d1 - σ √T`. -/
noncomputable def bs_d2 (S K T r sigma : ℝ) : ℝ :=
  bs_d1 S K T r sigma - sigma * Real.sqrt T

/-- `black_scholes_gamma`: guard `T <= 0 or sigma <= 0 or S <= 0`, else
`pdf(d1) / (S σ √T)`. -/
noncomputable def black_scholes_gamma (S K T r sigma : ℝ) : ℝ :=
  if T ≤ 0 ∨ sigma ≤ 0 ∨ S ≤ 0 then 0
  else normPdf (bs_d1 S K T r sigma) / (S * sigma * Real.sqrt T)

/-- `black_scholes_delta`: guard `T <= 0 or sigma <= 0 or S <= 0`, else
`cdf(d1)` for calls and `cdf(d1) - 1` otherwise. -/
noncomputable def black_scholes_delta (S K T r sigma : ℝ) (option_type : String) : ℝ :=
  if T ≤ 0 ∨ sigma ≤ 0 ∨ S ≤ 0 then 0
  else if option_type = "call" then normCdf (bs_d1 S K T r sigma)
  else normCdf (bs_d1 S K T r sigma) - 1

/-- `black_scholes_charm`: guard `T <= 0.001 or sigma <= 0 or S <= 0`, else
`-pdf(d1)(2rT - d2 σ √T)/(2T σ √T)` plus/minus the `r e^{-rT} Φ(∓d2)` term. -/
noncomputable def black_scholes_charm (S K T r sigma : ℝ) (option_type : String) : ℝ :=
  if T ≤ 1/1000 ∨ sigma ≤ 0 ∨ S ≤ 0 then 0
  else
    (-normPdf (bs_d1 S K T r sigma)
        * (2 * r * T - bs_d2 S K T r sigma * sigma * Real.sqrt T)
        / (2 * T * sigma * Real.sqrt T))
      + (if option_type = "put" then
          r * Real.exp (-r * T) * normCdf (-(bs_d2 S K T r sigma))
        else -(r * Real.exp (-r * T) * normCdf (bs_d2 S K T r sigma)))

/-- `black_scholes_vanna`: guard `T <= 0.001 or sigma <= 0 or S <= 0`, else
`-pdf(d1) d2 / σ`. -/
noncomputable def black_scholes_vanna (S K T r sigma : ℝ) : ℝ :=
  if T ≤ 1/1000 ∨ sigma ≤ 0 ∨ S ≤ 0 then 0
  else -normPdf (bs_d1 S K T r sigma) * bs_d2 S K T r sigma / sigma

/-- Counterexample to C3 as stated: at `T = 0.001` (which satisfies
`T ≤ 0.001`), positive spot and vol, `black_scholes_gamma` does not return 0 —
its guard is `T ≤ 0`, not `T ≤ 0.001`, and past the guard the density makes
the value strictly positive. -/
theorem black_scholes_gamma_nonzero_at_T_le_milli :
    (1/1000 : ℝ) ≤ 1/1000 ∧
    black_scholes_gamma 100 100 (1/1000) (1/20) (3/10) ≠ 0 := by
  refine ⟨le_rfl, ?_⟩
  unfold black_scholes_gamma
  rw [if_neg (by push_neg; refine ⟨by norm_num, by norm_num, by norm_num⟩)]
  have hpos : 0 < normPdf (bs_d1 100 100 (1/1000) (1/20) (3/10))
      / (100 * (3/10) * Real.sqrt (1/1000)) := by
    unfold normPdf
    positivity
  exact ne_of_gt hpos

/-- C3 (amended): `black_scholes_charm` and `black_scholes_vanna` return
exactly 0 whenever `T ≤ 0.001`, `σ ≤ 0` or `S ≤ 0`; `black_scholes_gamma` and
`black_scholes_delta` return exactly 0 whenever `T ≤ 0`, `σ ≤ 0` or `S ≤ 0`
(their guard threshold is 0, not 0.001). -/
theorem greeks_guards_return_zero (S K T r sigma : ℝ) (option_type : String) :
    ((T ≤ 1/1000 ∨ sigma ≤ 0 ∨ S ≤ 0) →
      black_scholes_charm S K T r sigma option_type = 0 ∧
      black_scholes_vanna S K T r sigma = 0) ∧
    ((T ≤ 0 ∨ sigma ≤ 0 ∨ S ≤ 0) →
      black_scholes_gamma S K T r sigma = 0 ∧
      black_scholes_delta S K T r sigma option_type = 0) := by
  constructor
  · intro h
    constructor
    · unfold black_scholes_charm
      exact if_pos h
    · unfold black_scholes_vanna
      exact if_pos h
  · intro h
    constructor
    · unfold black_scholes_gamma
      exact if_pos h
    · unfold black_scholes_delta
      exact if_pos h

/-- Witness for the amended C3. -/
theorem greeks_guards_return_zero_witness :
    black_scholes_charm 100 100 (1/2000) (1/20) (3/10) "call" = 0 ∧
    black_scholes_vanna 100 100 (1/2000) (1/20) (3/10) = 0 ∧
    black_scholes_gamma 100 100 (-1) (1/20) (3/10) = 0 ∧
    black_scholes_delta 100 100 (-1) (1/20) (3/10) "call" = 0 := by
  have h1 := (greeks_guards_return_zero 100 100 (1/2000) (1/20) (3/10) "call").1
    (Or.inl (by norm_num))
  have h2 := (greeks_guards_return_zero 100 100 (-1) (1/20) (3/10) "call").2
    (Or.inl (by norm_num))
  exact ⟨h1.1, h1.2, h2.1, h2.2⟩

/-! ## Daily ACF (`src/backend/acf_engine.py`, `compute_daily_acf`) -/

/-- `pd.Series(prices).pct_change().dropna()`: consecutive relative price
changes `(p[i+1] - p[i]) / p[i]`. -/
def pct_changes : List ℚ → List ℚ
  | a :: b :: rest => (b - a) / a :: pct_changes (b :: rest)
  | _ => []

/-- `mean = returns.mean()`. -/
def acf_mean (returns : List ℚ) : ℚ := returns.sum / returns.length

/-- `var = np.var(returns)` (population variance). -/
def acf_var (returns : List ℚ) : ℚ :=
  (returns.map (fun r => (r - acf_mean returns)^2)).sum / returns.length

/-- One biased autocorrelation entry:
`np.mean((returns[:n-lag]-mean)*(returns[lag:]-mean)) / var`. -/
def acf_at (returns : List ℚ) (lag : ℕ) : ℚ :=
  (((returns.take (returns.length - lag)).zip (returns.drop lag)).map
      (fun pr => (pr.1 - acf_mean returns) * (pr.2 - acf_mean returns))).sum
    / ((returns.length - lag : ℕ) : ℚ) / acf_var returns

/-- `compute_daily_acf`: `None` models the all-NaN array returned when the
length guard (`len(returns) < max_lag + 10`) or the variance floor
(`var < 1e-12`) trips; otherwise the ACF values at lags `1..max_lag`. -/
def compute_daily_acf (prices : List ℚ) (max_lag : ℕ) : Option (List ℚ) :=
  if (pct_changes prices).length < max_lag + 10 then none
  else if acf_var (pct_changes prices) < 1/10^12 then none
  else some ((List.range max_lag).map (fun i => acf_at (pct_changes prices) (i+1)))

/-- An exactly alternating list `p, q, p, q, ...` of a given length. -/
def altList (p q : ℚ) : ℕ → List ℚ
  | 0 => []
  | n+1 => p :: altList q p n

theorem pct_changes_length (l : List ℚ) : (pct_changes l).length = l.length - 1 := by
  induction l with
  | nil => rfl
  | cons a t ih =>
    cases t with
    | nil => rfl
    | cons b r =>
      rw [show pct_changes (a :: b :: r) = (b - a)/a :: pct_changes (b :: r) from rfl]
      simp only [List.length_cons, ih]
      omega

theorem pct_changes_replicate (m : ℕ) (c : ℚ) :
    pct_changes (List.replicate m c) = List.replicate (m - 1) 0 := by
  induction m with
  | zero => rfl
  | succ k ih =>
    cases k with
    | zero => rfl
    | succ j =>
      rw [show List.replicate (j + 2) c = c :: c :: List.replicate j c by
            simp [List.replicate_succ]]
      rw [show pct_changes (c :: c :: List.replicate j c)
            = (c - c)/c :: pct_changes (c :: List.replicate j c) from rfl]
      rw [show (c :: List.replicate j c) = List.replicate (j + 1) c by
            simp [List.replicate_succ]]
      rw [ih]
      simp [List.replicate_succ]

theorem altList_length (n : ℕ) : ∀ p q : ℚ, (altList p q n).length = n := by
  induction n with
  | zero => intro p q; rfl
  | succ k ih =>
    intro p q
    rw [show altList p q (k+1) = p :: altList q p k from rfl]
    simp [ih]

theorem pct_changes_altList (m : ℕ) : ∀ p q : ℚ,
    pct_changes (altList p q (m + 1)) = altList ((q - p)/p) ((p - q)/q) m := by
  induction m with
  | zero => intro p q; rfl
  | succ k ih =>
    intro p q
    rw [show altList p q (k + 2) = p :: altList q p (k + 1) from rfl]
    rw [show altList q p (k + 1) = q :: altList p q k from rfl]
    rw [show pct_changes (p :: q :: altList p q k)
          = (q - p)/p :: pct_changes (q :: altList p q k) from rfl]
    rw [show (q :: altList p q k) = altList q p (k + 1) from rfl]
    rw [ih q p]
    rfl

theorem altList_sum (n : ℕ) : ∀ p q : ℚ,
    (altList p q n).sum = (((n + 1)/2 : ℕ) : ℚ) * p + ((n/2 : ℕ) : ℚ) * q := by
  induction n with
  | zero => intro p q; simp [altList]
  | succ k ih =>
    intro p q
    rw [show altList p q (k+1) = p :: altList q p k from rfl]
    rw [List.sum_cons, ih q p]
    have h1 : ((k + 2)/2 : ℕ) = (k/2 : ℕ) + 1 := by omega
    rw [h1]
    push_cast
    ring

theorem altList_pairSum (c : ℚ) (k : ℕ) : ∀ a b : ℚ,
    (((altList a b (k + 1)).zip (altList b a k)).map
        (fun pr => (pr.1 - c) * (pr.2 - c))).sum
      = (k : ℚ) * ((a - c) * (b - c)) := by
  induction k with
  | zero => intro a b; simp [altList]
  | succ j ih =>
    intro a b
    rw [show (altList a b (j + 2)).zip (altList b a (j + 1))
          = (a, b) :: (altList b a (j + 1)).zip (altList a b j) from rfl]
    rw [List.map_cons, List.sum_cons, ih b a]
    push_cast
    ring

theorem zip_take_eq {α β : Type} (l : List α) : ∀ (l2 : List β) (k : ℕ),
    l2.length ≤ k → (l.take k).zip l2 = l.zip l2 := by
  induction l with
  | nil => intro l2 k _; simp
  | cons x xs ih =>
    intro l2 k hk
    cases l2 with
    | nil => simp
    | cons y ys =>
      cases k with
      | zero => simp at hk
      | succ k' =>
        rw [List.take_succ_cons]
        rw [show (x :: xs).zip (y :: ys) = (x, y) :: xs.zip ys from rfl]
        rw [show (x :: xs.take k').zip (y :: ys) = (x, y) :: (xs.take k').zip ys from rfl]
        rw [ih ys k' (by simpa using hk)]

theorem acf_at_one_alt_neg (a b : ℚ) (k : ℕ) (hk : 1 ≤ k) (hab : a ≠ b)
    (hvar : 0 < acf_var (altList a b (k + 1))) :
    acf_at (altList a b (k + 1)) 1 < 0 := by
  have hlen : (altList a b (k + 1)).length = k + 1 := altList_length (k + 1) a b
  unfold acf_at
  rw [hlen]
  simp only [Nat.add_sub_cancel]
  rw [show (altList a b (k + 1)).drop 1 = altList b a k from rfl]
  rw [zip_take_eq (altList a b (k + 1)) (altList b a k) k (by rw [altList_length])]
  rw [altList_pairSum (acf_mean (altList a b (k + 1))) k a b]
  have hk0 : ((k : ℕ) : ℚ) ≠ 0 := by
    exact_mod_cast (by omega : k ≠ 0)
  rw [mul_div_cancel_left₀ _ hk0]
  -- the adjacent product is negative because the mean is strictly between a and b
  have hsum := altList_sum (k + 1) a b
  have hmean : acf_mean (altList a b (k + 1))
      = ((((k + 2)/2 : ℕ) : ℚ) * a + (((k + 1)/2 : ℕ) : ℚ) * b) / ((k + 1 : ℕ) : ℚ) := by
    unfold acf_mean
    rw [hlen, hsum]
  have hcc : ((k + 2)/2 : ℕ) + ((k + 1)/2 : ℕ) = k + 1 := by omega
  have hca : 1 ≤ ((k + 2)/2 : ℕ) := by omega
  have hcb : 1 ≤ ((k + 1)/2 : ℕ) := by omega
  have hcaq : (0:ℚ) < (((k + 2)/2 : ℕ) : ℚ) := by exact_mod_cast (by omega : 0 < ((k + 2)/2 : ℕ))
  have hcbq : (0:ℚ) < (((k + 1)/2 : ℕ) : ℚ) := by exact_mod_cast (by omega : 0 < ((k + 1)/2 : ℕ))
  have hP : (a - acf_mean (altList a b (k + 1))) * (b - acf_mean (altList a b (k + 1)))
      = -((((k + 2)/2 : ℕ) : ℚ) * (((k + 1)/2 : ℕ) : ℚ) * (a - b)^2)
        / ((((k + 2)/2 : ℕ) : ℚ) + (((k + 1)/2 : ℕ) : ℚ))^2 := by
    have hncast : ((k + 1 : ℕ) : ℚ) = (((k + 2)/2 : ℕ) : ℚ) + (((k + 1)/2 : ℕ) : ℚ) := by
      exact_mod_cast hcc.symm
    rw [hmean, hncast]
    have hden : (((k + 2)/2 : ℕ) : ℚ) + (((k + 1)/2 : ℕ) : ℚ) ≠ 0 := by
      positivity
    field_simp
    ring
  have hPneg : (a - acf_mean (altList a b (k + 1))) * (b - acf_mean (altList a b (k + 1))) < 0 := by
    rw [hP]
    apply div_neg_of_neg_of_pos
    · have hx : 0 < (((k + 2)/2 : ℕ) : ℚ) * (((k + 1)/2 : ℕ) : ℚ) * (a - b)^2 :=
        mul_pos (mul_pos hcaq hcbq) (pow_two_pos_of_ne_zero (sub_ne_zero.mpr hab))
      linarith
    · positivity
  exact div_neg_of_neg_of_pos hPneg hvar

/-- C5 (amended): with the length guard passed, a constant price series makes
`compute_daily_acf` return the undefined (all-NaN) result via the
variance-floor guard, and an exactly alternating positive price series that
yields a defined result has lag-1 ACF strictly below zero. (The claim's
strictly-monotonic clause is dropped: it is refuted by the counterexample.) -/
theorem compute_daily_acf_constant_and_alternating :
    (∀ (L m : ℕ) (c : ℚ), L + 11 ≤ m →
      compute_daily_acf (List.replicate m c) L = none) ∧
    (∀ (p q : ℚ) (L m : ℕ), 0 < p → 0 < q → p ≠ q → 1 ≤ L →
      (compute_daily_acf (altList p q m) L).isSome = true →
      ((compute_daily_acf (altList p q m) L).bind List.head?).getD 1 < 0) := by
  constructor
  · intro L m c hm
    unfold compute_daily_acf
    rw [pct_changes_replicate, List.length_replicate]
    rw [if_neg (by omega)]
    have hvar : acf_var (List.replicate (m - 1) (0:ℚ)) = 0 := by
      unfold acf_var acf_mean
      simp
    rw [hvar]
    rw [if_pos (by norm_num)]
  · intro p q L m hp hq hne hL hsome
    have h1 : ¬ (pct_changes (altList p q m)).length < L + 10 := by
      intro h
      unfold compute_daily_acf at hsome
      rw [if_pos h] at hsome
      simp at hsome
    have h2 : ¬ acf_var (pct_changes (altList p q m)) < 1/10^12 := by
      intro h
      unfold compute_daily_acf at hsome
      rw [if_neg h1, if_pos h] at hsome
      simp at hsome
    have hlen : (pct_changes (altList p q m)).length = m - 1 := by
      rw [pct_changes_length, altList_length]
    rw [hlen] at h1
    have hm12 : L + 11 ≤ m := by omega
    have hmn : m = (m - 1 - 1) + 1 + 1 := by omega
    have hret : pct_changes (altList p q m)
        = altList ((q - p)/p) ((p - q)/q) ((m - 1 - 1) + 1) := by
      rw [hmn]
      exact pct_changes_altList ((m - 1 - 1) + 1) p q
    have hres : compute_daily_acf (altList p q m) L
        = some ((List.range L).map
            (fun i => acf_at (altList ((q - p)/p) ((p - q)/q) ((m - 1 - 1) + 1)) (i + 1))) := by
      unfold compute_daily_acf
      rw [hlen]
      rw [if_neg h1, if_neg h2, hret]
    obtain ⟨L', rfl⟩ : ∃ L', L = L' + 1 := ⟨L - 1, by omega⟩
    rw [hres, List.range_succ_eq_map]
    simp only [List.map_cons, Option.bind_eq_bind, Option.some_bind, List.head?_cons,
      Option.getD_some]
    -- lag-1 ACF of the alternating return series is negative
    have hp' : p ≠ 0 := ne_of_gt hp
    have hq' : q ≠ 0 := ne_of_gt hq
    have hab : (q - p)/p ≠ (p - q)/q := by
      have habv : (q - p)/p - (p - q)/q = (q - p) * (p + q) / (p * q) := by
        field_simp
        ring
      have hnum : (q - p) * (p + q) ≠ 0 :=
        mul_ne_zero (sub_ne_zero.mpr (Ne.symm hne)) (ne_of_gt (by linarith))
      have hd : (q - p) * (p + q) / (p * q) ≠ 0 :=
        div_ne_zero hnum (ne_of_gt (mul_pos hp hq))
      intro h
      have hz : (q - p)/p - (p - q)/q = 0 := by rw [h, sub_self]
      rw [habv] at hz
      exact hd hz
    have hvarpos : 0 < acf_var (altList ((q - p)/p) ((p - q)/q) ((m - 1 - 1) + 1)) := by
      rw [← hret]
      have := not_lt.mp h2
      linarith [this]
    exact acf_at_one_alt_neg _ _ (m - 1 - 1) (by omega) hab hvarpos

theorem altList_sqSum (c : ℚ) (n : ℕ) : ∀ a b : ℚ,
    ((altList a b n).map (fun r => (r - c)^2)).sum
      = (((n + 1)/2 : ℕ) : ℚ) * (a - c)^2 + ((n/2 : ℕ) : ℚ) * (b - c)^2 := by
  induction n with
  | zero => intro a b; simp [altList]
  | succ k ih =>
    intro a b
    rw [show altList a b (k+1) = a :: altList b a k from rfl]
    rw [List.map_cons, List.sum_cons, ih b a]
    have h1 : ((k + 2)/2 : ℕ) = (k/2 : ℕ) + 1 := by omega
    rw [h1]
    push_cast
    ring

theorem acf_mean_alt (a b : ℚ) (k : ℕ) :
    acf_mean (altList a b (k + 1))
      = ((((k + 2)/2 : ℕ) : ℚ) * a + (((k + 1)/2 : ℕ) : ℚ) * b) / ((k + 1 : ℕ) : ℚ) := by
  unfold acf_mean
  rw [altList_length, altList_sum]

theorem acf_var_alt (a b : ℚ) (k : ℕ) :
    acf_var (altList a b (k + 1))
      = (((k + 2)/2 : ℕ) : ℚ) * (((k + 1)/2 : ℕ) : ℚ) * (a - b)^2 / ((k + 1 : ℕ) : ℚ)^2 := by
  unfold acf_var
  rw [altList_length, altList_sqSum (acf_mean (altList a b (k + 1))) (k + 1) a b,
    acf_mean_alt]
  rw [show k + 1 + 1 = k + 2 from by omega]
  have hcc : ((k + 2)/2 : ℕ) + ((k + 1)/2 : ℕ) = k + 1 := by omega
  have hncast : ((k + 1 : ℕ) : ℚ) = (((k + 2)/2 : ℕ) : ℚ) + (((k + 1)/2 : ℕ) : ℚ) := by
    exact_mod_cast hcc.symm
  have hden : (((k + 2)/2 : ℕ) : ℚ) + (((k + 1)/2 : ℕ) : ℚ) ≠ 0 := by
    rw [← hncast]
    exact_mod_cast (by omega : (k + 1 : ℕ) ≠ 0)
  rw [hncast]
  field_simp
  ring

/-- Witness for the amended C5: a constant 12-price series and the
alternating series 100, 101, 100, ... of 12 prices at `max_lag = 1`. -/
theorem compute_daily_acf_constant_and_alternating_witness :
    compute_daily_acf (List.replicate 12 (100:ℚ)) 1 = none ∧
    ((compute_daily_acf (altList 100 101 12) 1).bind List.head?).getD 1 < 0 := by
  refine ⟨compute_daily_acf_constant_and_alternating.1 1 12 100 (by norm_num), ?_⟩
  apply compute_daily_acf_constant_and_alternating.2 100 101 1 12
    (by norm_num) (by norm_num) (by norm_num) (by norm_num)
  have h12 : altList (100:ℚ) 101 12 = altList 100 101 (11 + 1) := rfl
  unfold compute_daily_acf
  rw [h12, pct_changes_altList 11 100 101]
  rw [show ((101:ℚ) - 100)/100 = 1/100 by norm_num,
    show ((100:ℚ) - 101)/101 = -(1/101) by norm_num]
  rw [altList_length]
  rw [if_neg (by norm_num)]
  rw [show (11:ℕ) = 10 + 1 from rfl, acf_var_alt]
  rw [if_neg (by norm_num)]
  rfl

/-- A strictly increasing price list whose returns alternate exactly between
1% and 3%. -/
def monoAltPrices : List ℚ :=
  [100, 101, (10403/100 : ℚ), (1050703/10000 : ℚ), (108222409/1000000 : ℚ),
   (10930463309/100000000 : ℚ), (1125837720827/10000000000 : ℚ),
   (113709609803527/1000000000000 : ℚ), (11712089809763281/100000000000000 : ℚ),
   (1182921070786091381/10000000000000000 : ℚ),
   (121840870290967412243/1000000000000000000 : ℚ),
   (12305927899387708636543/100000000000000000000 : ℚ)]

/-- Counterexample to C5 as stated: a strictly monotonic price series (passing
the length guard) whose lag-1 ACF is strictly negative, refuting "every
strictly monotonic price series yields lag-1 ACF > 0". -/
theorem compute_daily_acf_monotonic_not_positive :
    List.Chain' (· < ·) monoAltPrices ∧
    ((compute_daily_acf monoAltPrices 1).bind List.head?).getD 1 < 0 := by
  constructor
  · norm_num [monoAltPrices, List.chain'_cons, List.chain'_singleton]
  · have hpct : pct_changes monoAltPrices = altList (1/100) (3/100) 11 := by
      rw [show altList (1/100 : ℚ) (3/100) 11
            = [1/100, 3/100, 1/100, 3/100, 1/100, 3/100, 1/100, 3/100, 1/100,
               3/100, 1/100] from rfl]
      norm_num [monoAltPrices, pct_changes]
    unfold compute_daily_acf
    rw [hpct, altList_length]
    rw [if_neg (by norm_num)]
    rw [show (11:ℕ) = 10 + 1 from rfl, acf_var_alt]
    rw [if_neg (by norm_num)]
    simp only [List.range_succ, List.range_zero, List.nil_append, List.map_cons,
      List.map_nil, Option.some_bind, List.head?_cons, Option.getD_some]
    show acf_at (altList (1/100) (3/100) (10 + 1)) 1 < 0
    apply acf_at_one_alt_neg (1/100) (3/100) 10 (by norm_num) (by norm_num)
    rw [acf_var_alt]
    norm_num

/-! ## Gamma channel (`src/backend/gamma_channel.py`, `extract_channel`) -/

/-- Python `max(gen, default=None)`. -/
def maxListQ : List ℚ → Option ℚ
  | [] => none
  | x :: xs => some (xs.foldl max x)

/-- Python `min(gen, default=None)`. -/
def minListQ : List ℚ → Option ℚ
  | [] => none
  | x :: xs => some (xs.foldl min x)

/-- The channel dictionary returned by `extract_channel`. -/
structure Channel where
  floor : Option ℚ
  ceiling : Option ℚ
  floor_distance_pct : Option ℚ
  ceiling_distance_pct : Option ℚ
  width_pct : Option ℚ
  channel_position : Option ℚ
  floor_gex : ℚ
  ceiling_gex : ℚ
  degenerate : Bool

def empty_channel : Channel := ⟨none, none, none, none, none, none, 0, 0, false⟩

/-- `max(abs(s["net_gex"]) for s in gex_by_strike)` (all values are ≥ 0, so
folding from 0 agrees with Python's max over the non-empty list). -/
def channel_max_gex (rows : List GexRow) : ℚ :=
  (rows.map (fun s => |s.net_gex|)).foldl max 0

/-- Floor pass 1: highest strike below spot with `net_gex > max_gex * floor_threshold`. -/
def channel_floor0 (rows : List GexRow) (spot max_gex ft : ℚ) : Option ℚ :=
  maxListQ ((rows.filter (fun s => s.strike < spot ∧ s.net_gex > max_gex * ft)).map (·.strike))

/-- Ceiling pass 1: lowest strike above spot with `net_gex > max_gex * ceiling_threshold`. -/
def channel_ceiling0 (rows : List GexRow) (spot max_gex ct : ℚ) : Option ℚ :=
  minListQ ((rows.filter (fun s => s.strike > spot ∧ s.net_gex > max_gex * ct)).map (·.strike))

/-- Floor with the 10% absolute-GEX fallback (`max(below_any, key=abs)`). -/
def channel_floor1 (rows : List GexRow) (spot max_gex ft : ℚ) : Option ℚ :=
  match channel_floor0 rows spot max_gex ft with
  | some f => some f
  | none =>
    match rows.filter (fun s => s.strike < spot ∧ |s.net_gex| > max_gex * (10/100)) with
    | [] => none
    | x :: xs => some (firstMaxBy (fun s => |s.net_gex|) x xs).strike

/-- Ceiling with the 10% absolute-GEX fallback (`min(above_any, key=abs)`). -/
def channel_ceiling1 (rows : List GexRow) (spot max_gex ct : ℚ) : Option ℚ :=
  match channel_ceiling0 rows spot max_gex ct with
  | some c => some c
  | none =>
    match rows.filter (fun s => s.strike > spot ∧ |s.net_gex| > max_gex * (10/100)) with
    | [] => none
    | x :: xs => some (firstMinBy (fun s => |s.net_gex|) x xs).strike

/-- The floor-widening loop of `_widen_channel`: each candidate becomes the
new floor, stopping once `spot - new_floor >= target_half`. -/
def widenDown (spot th : ℚ) : List GexRow → ℚ → ℚ
  | [], nf => nf
  | s :: rest, _ => if spot - s.strike ≥ th then s.strike else widenDown spot th rest s.strike

/-- The ceiling-widening loop of `_widen_channel`. -/
def widenUp (spot th : ℚ) : List GexRow → ℚ → ℚ
  | [], nc => nc
  | s :: rest, _ => if s.strike - spot ≥ th then s.strike else widenUp spot th rest s.strike

/-- `_widen_channel`: candidates beyond the current bounds above a 5%
absolute-GEX threshold, walked outward (strikes sorted descending below /
ascending above) until half the minimum width is covered. -/
def widen_channel (rows : List GexRow) (spot f c max_gex mw : ℚ) : ℚ × ℚ :=
  (widenDown spot ((mw / 100) * spot / 2)
     ((rows.filter (fun s => s.strike < f ∧ |s.net_gex| > max_gex * (5/100))).mergeSort
        (fun a b => decide (b.strike ≤ a.strike))) f,
   widenUp spot ((mw / 100) * spot / 2)
     ((rows.filter (fun s => s.strike > c ∧ |s.net_gex| > max_gex * (5/100))).mergeSort
        (fun a b => decide (a.strike ≤ b.strike))) c)

/-- Degenerate-band handling (`if floor_strike and ceiling_strike:` with
Python truthiness, then widen when the raw width is below `min_width_pct`). -/
def channel_widened (rows : List GexRow) (spot max_gex mw : ℚ)
    (floor1 ceiling1 : Option ℚ) : Option ℚ × Option ℚ × Bool :=
  match floor1, ceiling1 with
  | some f, some c =>
    if f ≠ 0 ∧ c ≠ 0 then
      if 100 * (c - f) / spot < mw then
        (some (widen_channel rows spot f c max_gex mw).1,
         some (widen_channel rows spot f c max_gex mw).2, true)
      else (some f, some c, false)
    else (some f, some c, false)
  | _, _ => (floor1, ceiling1, false)

/-- Assembles the returned channel dictionary from the final bounds
(widths/position/distances again guarded by Python truthiness). -/
def buildChannel (rows : List GexRow) (spot : ℚ) (w : Option ℚ × Option ℚ × Bool) : Channel :=
  { floor := w.1
    ceiling := w.2.1
    floor_distance_pct :=
      match w.1 with
      | some f => if f ≠ 0 then some (rndTo 2 (100 * (spot - f) / spot)) else none
      | none => none
    ceiling_distance_pct :=
      match w.2.1 with
      | some c => if c ≠ 0 then some (rndTo 2 (100 * (c - spot) / spot)) else none
      | none => none
    width_pct :=
      match w.1, w.2.1 with
      | some f, some c => if f ≠ 0 ∧ c ≠ 0 then some (rndTo 2 (100 * (c - f) / spot)) else none
      | _, _ => none
    channel_position :=
      match w.1, w.2.1 with
      | some f, some c =>
        if f ≠ 0 ∧ c ≠ 0 then
          (if c > f then some (rndTo 3 ((spot - f) / (c - f))) else none)
        else none
      | _, _ => none
    floor_gex := rndTo 2 (rows.foldl
      (fun acc s =>
        match w.1 with
        | some f => if f ≠ 0 ∧ s.strike = f then s.net_gex else acc
        | none => acc) 0)
    ceiling_gex := rndTo 2 (rows.foldl
      (fun acc s =>
        match w.2.1 with
        | some c => if c ≠ 0 ∧ s.strike = c then s.net_gex else acc
        | none => acc) 0)
    degenerate := w.2.2 }

/-- `extract_channel` with the module's default thresholds as parameters. -/
def extract_channel (rows : List GexRow) (spot : ℚ)
    (ft : ℚ := 15/100) (ct : ℚ := 15/100) (mw : ℚ := 1) : Channel :=
  if rows = [] ∨ spot ≤ 0 then empty_channel
  else if channel_max_gex rows ≤ 0 then empty_channel
  else
    buildChannel rows spot
      (channel_widened rows spot (channel_max_gex rows) mw
        (channel_floor1 rows spot (channel_max_gex rows) ft)
        (channel_ceiling1 rows spot (channel_max_gex rows) ct))

theorem foldl_max_mem (x : ℚ) (xs : List ℚ) : xs.foldl max x ∈ x :: xs := by
  induction xs generalizing x with
  | nil => simp
  | cons y ys ih =>
    rw [List.foldl_cons]
    have h := ih (max x y)
    rcases List.mem_cons.mp h with h' | h'
    · rcases max_choice x y with hc | hc
      · rw [h'.trans hc]
        exact List.mem_cons_self _ _
      · rw [h'.trans hc]
        exact List.mem_cons.mpr (Or.inr (List.mem_cons_self _ _))
    · exact List.mem_cons.mpr (Or.inr (List.mem_cons.mpr (Or.inr h')))

theorem foldl_min_mem (x : ℚ) (xs : List ℚ) : xs.foldl min x ∈ x :: xs := by
  induction xs generalizing x with
  | nil => simp
  | cons y ys ih =>
    rw [List.foldl_cons]
    have h := ih (min x y)
    rcases List.mem_cons.mp h with h' | h'
    · rcases min_choice x y with hc | hc
      · rw [h'.trans hc]
        exact List.mem_cons_self _ _
      · rw [h'.trans hc]
        exact List.mem_cons.mpr (Or.inr (List.mem_cons_self _ _))
    · exact List.mem_cons.mpr (Or.inr (List.mem_cons.mpr (Or.inr h')))

theorem maxListQ_mem {l : List ℚ} {v : ℚ} (h : maxListQ l = some v) : v ∈ l := by
  cases l with
  | nil => simp [maxListQ] at h
  | cons x xs =>
    unfold maxListQ at h
    rw [Option.some.injEq] at h
    rw [← h]
    exact foldl_max_mem x xs

theorem minListQ_mem {l : List ℚ} {v : ℚ} (h : minListQ l = some v) : v ∈ l := by
  cases l with
  | nil => simp [minListQ] at h
  | cons x xs =>
    unfold minListQ at h
    rw [Option.some.injEq] at h
    rw [← h]
    exact foldl_min_mem x xs

theorem widenDown_mem (spot th : ℚ) (cands : List GexRow) (nf : ℚ) :
    widenDown spot th cands nf = nf ∨
      ∃ s ∈ cands, widenDown spot th cands nf = s.strike := by
  induction cands generalizing nf with
  | nil => left; rfl
  | cons s rest ih =>
    unfold widenDown
    split_ifs with h
    · right; exact ⟨s, List.mem_cons_self _ _, rfl⟩
    · rcases ih s.strike with h' | ⟨t, ht, h'⟩
      · right; exact ⟨s, List.mem_cons_self _ _, h'⟩
      · right; exact ⟨t, List.mem_cons.mpr (Or.inr ht), h'⟩

theorem widenUp_mem (spot th : ℚ) (cands : List GexRow) (nc : ℚ) :
    widenUp spot th cands nc = nc ∨
      ∃ s ∈ cands, widenUp spot th cands nc = s.strike := by
  induction cands generalizing nc with
  | nil => left; rfl
  | cons s rest ih =>
    unfold widenUp
    split_ifs with h
    · right; exact ⟨s, List.mem_cons_self _ _, rfl⟩
    · rcases ih s.strike with h' | ⟨t, ht, h'⟩
      · right; exact ⟨s, List.mem_cons_self _ _, h'⟩
      · right; exact ⟨t, List.mem_cons.mpr (Or.inr ht), h'⟩

theorem channel_floor1_spec (rows : List GexRow) (spot mg ft f : ℚ)
    (h : channel_floor1 rows spot mg ft = some f) :
    f < spot ∧ ∃ r ∈ rows, r.strike = f := by
  unfold channel_floor1 at h
  cases h0 : channel_floor0 rows spot mg ft with
  | some f0 =>
    rw [h0, Option.some.injEq] at h
    subst h
    unfold channel_floor0 at h0
    have hm := maxListQ_mem h0
    rcases List.mem_map.mp hm with ⟨r, hr, hrs⟩
    have hr' := List.mem_filter.mp hr
    have hprop := hr'.2
    simp only [decide_eq_true_eq] at hprop
    exact ⟨hrs ▸ hprop.1, r, hr'.1, hrs⟩
  | none =>
    rw [h0] at h
    cases hfl : rows.filter (fun s => s.strike < spot ∧ |s.net_gex| > mg * (10/100)) with
    | nil => rw [hfl] at h; exact absurd h (by simp)
    | cons x xs =>
      rw [hfl, Option.some.injEq] at h
      subst h
      have hmem : firstMaxBy (fun s => |s.net_gex|) x xs ∈ x :: xs := firstMaxBy_mem _ _ _
      rw [← hfl] at hmem
      have hr' := List.mem_filter.mp hmem
      have hprop := hr'.2
      simp only [decide_eq_true_eq] at hprop
      exact ⟨hprop.1, _, hr'.1, rfl⟩

theorem channel_ceiling1_spec (rows : List GexRow) (spot mg ct c : ℚ)
    (h : channel_ceiling1 rows spot mg ct = some c) :
    spot < c ∧ ∃ r ∈ rows, r.strike = c := by
  unfold channel_ceiling1 at h
  cases h0 : channel_ceiling0 rows spot mg ct with
  | some c0 =>
    rw [h0, Option.some.injEq] at h
    subst h
    unfold channel_ceiling0 at h0
    have hm := minListQ_mem h0
    rcases List.mem_map.mp hm with ⟨r, hr, hrs⟩
    have hr' := List.mem_filter.mp hr
    have hprop := hr'.2
    simp only [decide_eq_true_eq] at hprop
    exact ⟨hrs ▸ hprop.1, r, hr'.1, hrs⟩
  | none =>
    rw [h0] at h
    cases hfl : rows.filter (fun s => s.strike > spot ∧ |s.net_gex| > mg * (10/100)) with
    | nil => rw [hfl] at h; exact absurd h (by simp)
    | cons x xs =>
      rw [hfl, Option.some.injEq] at h
      subst h
      have hmem : firstMinBy (fun s => |s.net_gex|) x xs ∈ x :: xs := firstMinBy_mem _ _ _
      rw [← hfl] at hmem
      have hr' := List.mem_filter.mp hmem
      have hprop := hr'.2
      simp only [decide_eq_true_eq] at hprop
      exact ⟨hprop.1, _, hr'.1, rfl⟩

theorem channel_widened_floor_spec (rows : List GexRow) (spot mg mw : ℚ)
    (fo co : Option ℚ) (f' : ℚ) (hpos : ∀ r ∈ rows, 0 < r.strike)
    (hfo : ∀ g, fo = some g → g < spot ∧ 0 < g)
    (h : (channel_widened rows spot mg mw fo co).1 = some f') :
    f' < spot ∧ 0 < f' := by
  cases fo with
  | none =>
    cases co <;> simp [channel_widened] at h
  | some f =>
    cases co with
    | none =>
      simp only [channel_widened, Option.some.injEq] at h
      subst h
      exact hfo _ rfl
    | some c =>
      obtain ⟨hflt, hfpos⟩ := hfo f rfl
      simp only [channel_widened] at h
      split_ifs at h with htr hwid
      · -- widened
        simp only [Option.some.injEq] at h
        rw [← h]
        rcases widenDown_mem spot ((mw / 100) * spot / 2)
            ((rows.filter (fun s => s.strike < f ∧ |s.net_gex| > mg * (5/100))).mergeSort
              (fun a b => decide (b.strike ≤ a.strike))) f with hh | ⟨s, hs, hh⟩
        · rw [show (widen_channel rows spot f c mg mw).1
                = widenDown spot ((mw / 100) * spot / 2)
                  ((rows.filter (fun s => s.strike < f ∧ |s.net_gex| > mg * (5/100))).mergeSort
                    (fun a b => decide (b.strike ≤ a.strike))) f from rfl, hh]
          exact ⟨hflt, hfpos⟩
        · rw [show (widen_channel rows spot f c mg mw).1
                = widenDown spot ((mw / 100) * spot / 2)
                  ((rows.filter (fun s => s.strike < f ∧ |s.net_gex| > mg * (5/100))).mergeSort
                    (fun a b => decide (b.strike ≤ a.strike))) f from rfl, hh]
          have hs' := List.mem_mergeSort.mp hs
          have hr' := List.mem_filter.mp hs'
          have hprop := hr'.2
          simp only [decide_eq_true_eq] at hprop
          exact ⟨lt_trans hprop.1 hflt, hpos _ hr'.1⟩
      · simp only [Option.some.injEq] at h
        rw [← h]
        exact ⟨hflt, hfpos⟩
      · simp only [Option.some.injEq] at h
        rw [← h]
        exact ⟨hflt, hfpos⟩

theorem channel_widened_ceiling_spec (rows : List GexRow) (spot mg mw : ℚ)
    (fo co : Option ℚ) (c' : ℚ)
    (hco : ∀ g, co = some g → spot < g)
    (h : (channel_widened rows spot mg mw fo co).2.1 = some c') :
    spot < c' := by
  cases fo with
  | none =>
    cases co with
    | none => simp [channel_widened] at h
    | some c =>
      simp only [channel_widened, Option.some.injEq] at h
      subst h
      exact hco _ rfl
  | some f =>
    cases co with
    | none => simp [channel_widened] at h
    | some c =>
      have hclt := hco c rfl
      simp only [channel_widened] at h
      split_ifs at h with htr hwid
      · simp only [Option.some.injEq] at h
        rw [← h]
        rcases widenUp_mem spot ((mw / 100) * spot / 2)
            ((rows.filter (fun s => s.strike > c ∧ |s.net_gex| > mg * (5/100))).mergeSort
              (fun a b => decide (a.strike ≤ b.strike))) c with hh | ⟨s, hs, hh⟩
        · rw [show (widen_channel rows spot f c mg mw).2
                = widenUp spot ((mw / 100) * spot / 2)
                  ((rows.filter (fun s => s.strike > c ∧ |s.net_gex| > mg * (5/100))).mergeSort
                    (fun a b => decide (a.strike ≤ b.strike))) c from rfl, hh]
          exact hclt
        · rw [show (widen_channel rows spot f c mg mw).2
                = widenUp spot ((mw / 100) * spot / 2)
                  ((rows.filter (fun s => s.strike > c ∧ |s.net_gex| > mg * (5/100))).mergeSort
                    (fun a b => decide (a.strike ≤ b.strike))) c from rfl, hh]
          have hs' := List.mem_mergeSort.mp hs
          have hr' := List.mem_filter.mp hs'
          have hprop := hr'.2
          simp only [decide_eq_true_eq] at hprop
          exact lt_trans hclt hprop.1
      · simp only [Option.some.injEq] at h
        rw [← h]
        exact hclt
      · simp only [Option.some.injEq] at h
        rw [← h]
        exact hclt

theorem rndTo_unit (d : ℕ) (x : ℚ) (h0 : 0 < x) (h1 : x < 1) :
    0 ≤ rndTo d x ∧ rndTo d x ≤ 1 := by
  unfold rndTo
  have hp : (0:ℚ) < 10 ^ d := by positivity
  constructor
  · apply div_nonneg _ (le_of_lt hp)
    have hlow := le_rnd (x * 10 ^ d)
    have hxp : 0 < x * 10 ^ d := mul_pos h0 hp
    have hgt : (-1 : ℤ) < rnd (x * 10 ^ d) := by
      have hq : (-1 : ℚ) < (rnd (x * 10 ^ d) : ℚ) := by linarith
      exact_mod_cast hq
    have hge : (0 : ℤ) ≤ rnd (x * 10 ^ d) := by omega
    exact_mod_cast hge
  · rw [div_le_one hp]
    have hup := rnd_le (x * 10 ^ d)
    have hxlt : x * 10 ^ d < 10 ^ d := by nlinarith
    have hlt : rnd (x * 10 ^ d) < 10 ^ d + 1 := by
      have hq : (rnd (x * 10 ^ d) : ℚ) < ((10 ^ d + 1 : ℤ) : ℚ) := by
        push_cast
        linarith
      exact_mod_cast hq
    have hle : rnd (x * 10 ^ d) ≤ 10 ^ d := by omega
    have : ((rnd (x * 10 ^ d) : ℤ) : ℚ) ≤ ((10 ^ d : ℤ) : ℚ) := by exact_mod_cast hle
    calc ((rnd (x * 10 ^ d) : ℤ) : ℚ) ≤ ((10 ^ d : ℤ) : ℚ) := this
      _ = 10 ^ d := by push_cast; ring

/-- C9: whenever `extract_channel` returns both a non-null floor and ceiling
(for profiles with positive strikes, as produced by the exposure builder,
and positive spot), `floor < spot < ceiling` holds and `channel_position`
is set with a value in `[0, 1]`. -/
theorem extract_channel_invariant (rows : List GexRow) (spot ft ct mw : ℚ)
    (hpos : ∀ r ∈ rows, 0 < r.strike) (hspot : 0 < spot) (f c : ℚ)
    (hf : (extract_channel rows spot ft ct mw).floor = some f)
    (hc : (extract_channel rows spot ft ct mw).ceiling = some c) :
    f < spot ∧ spot < c ∧
    ∃ p, (extract_channel rows spot ft ct mw).channel_position = some p ∧
      0 ≤ p ∧ p ≤ 1 := by
  unfold extract_channel at hf hc ⊢
  split_ifs at hf hc ⊢ with h1 h2
  · exact absurd hf (by simp [empty_channel])
  · exact absurd hf (by simp [empty_channel])
  · have hf2 : (channel_widened rows spot (channel_max_gex rows) mw
        (channel_floor1 rows spot (channel_max_gex rows) ft)
        (channel_ceiling1 rows spot (channel_max_gex rows) ct)).1 = some f := hf
    have hc2 : (channel_widened rows spot (channel_max_gex rows) mw
        (channel_floor1 rows spot (channel_max_gex rows) ft)
        (channel_ceiling1 rows spot (channel_max_gex rows) ct)).2.1 = some c := hc
    have hfoprop : ∀ g, channel_floor1 rows spot (channel_max_gex rows) ft = some g →
        g < spot ∧ 0 < g := by
      intro g hg
      obtain ⟨hlt, r, hr, hrs⟩ := channel_floor1_spec rows spot (channel_max_gex rows) ft g hg
      exact ⟨hlt, hrs ▸ hpos r hr⟩
    have hcoprop : ∀ g, channel_ceiling1 rows spot (channel_max_gex rows) ct = some g →
        spot < g := by
      intro g hg
      exact (channel_ceiling1_spec rows spot (channel_max_gex rows) ct g hg).1
    obtain ⟨hflt, hfpos⟩ := channel_widened_floor_spec rows spot (channel_max_gex rows) mw
      _ _ f hpos hfoprop hf2
    have hclt := channel_widened_ceiling_spec rows spot (channel_max_gex rows) mw
      _ _ c hcoprop hc2
    refine ⟨hflt, hclt, ?_⟩
    have hcpos : 0 < c := lt_trans hspot hclt
    have hcf : f < c := lt_trans hflt hclt
    have hposfield : (buildChannel rows spot (channel_widened rows spot (channel_max_gex rows) mw
        (channel_floor1 rows spot (channel_max_gex rows) ft)
        (channel_ceiling1 rows spot (channel_max_gex rows) ct))).channel_position
        = some (rndTo 3 ((spot - f) / (c - f))) := by
      simp only [buildChannel]
      rw [hf2, hc2]
      show (if f ≠ 0 ∧ c ≠ 0 then
          if c > f then some (rndTo 3 ((spot - f) / (c - f))) else none
        else none) = some (rndTo 3 ((spot - f) / (c - f)))
      rw [if_pos ⟨ne_of_gt hfpos, ne_of_gt hcpos⟩, if_pos hcf]
    refine ⟨rndTo 3 ((spot - f) / (c - f)), hposfield, ?_⟩
    have hrat0 : 0 < (spot - f) / (c - f) := div_pos (by linarith) (by linarith)
    have hrat1 : (spot - f) / (c - f) < 1 := by
      rw [div_lt_one (by linarith)]
      linarith
    exact rndTo_unit 3 _ hrat0 hrat1

/-- Witness for C9 at a concrete two-strike profile around spot 100. -/
theorem extract_channel_invariant_witness :
    (95:ℚ) < 100 ∧ (100:ℚ) < 105 ∧
    ∃ p, (extract_channel [⟨95, 100⟩, ⟨105, 100⟩] 100).channel_position = some p ∧
      0 ≤ p ∧ p ≤ 1 := by
  have hf : (extract_channel [⟨95, 100⟩, ⟨105, 100⟩] 100).floor = some 95 := by
    norm_num [extract_channel, channel_max_gex, channel_floor1, channel_floor0,
      channel_ceiling1, channel_ceiling0, maxListQ, minListQ, channel_widened,
      buildChannel, List.foldl, List.filter]
    rw [if_neg (by simp)]
  have hc : (extract_channel [⟨95, 100⟩, ⟨105, 100⟩] 100).ceiling = some 105 := by
    norm_num [extract_channel, channel_max_gex, channel_floor1, channel_floor0,
      channel_ceiling1, channel_ceiling0, maxListQ, minListQ, channel_widened,
      buildChannel, List.foldl, List.filter]
    rw [if_neg (by simp)]
  exact extract_channel_invariant [⟨95, 100⟩, ⟨105, 100⟩] 100 (15/100) (15/100) 1
    (by intro r hr; fin_cases hr <;> norm_num) (by norm_num) 95 105 hf hc

end DealersEdge
